import Mathlib

/-!
Verification development for the zusound sonification engine.

The definitions below are shallow embeddings of the TypeScript source:

* `src/packages/zusound/src/math.ts`         — `clamp01`, `lerp`
* `src/unnamed/part_010` (audio runtime)     — `retainAudioEngine`,
  `releaseAudioEngine`, `cleanupAudio`, `mergeAesthetics`
* `src/unnamed/part_009` (dissonance module) — `quantize`, `buildPartials`,
  `pairDissonance`, `intervalDissonance`, `rankChromaticIntervals`,
  `setRankingCache`, `mapPleasantnessToInterval`,
  `mapPleasantnessToIntervalContinuous`
* `src/packages/zusound/src/adapter.ts`      — `deduplicateByPath`
* `src/packages/zusound/src/scheduler.ts`    — `scheduleAudioTask`
* `src/packages/zusound/src/synthesis.ts`    — `createTimbreWave`
* `src/packages/zusound/src/differ.ts`       — `detectChanges` (primitive branch)

JavaScript numbers are modelled by `ℚ` where only finite real arithmetic is
involved, and by the four-constructor type `JSNum` (NaN / ±Infinity / finite)
where the behaviour on non-finite values is at issue.  Transcendental
helpers of the host (`Math.exp`, `Math.pow`, `Math.log2`) are abstracted as
explicit function parameters: every theorem that mentions them holds for an
arbitrary instantiation, so it holds in particular for the host functions.
JavaScript `Map` objects (which enumerate keys in insertion order) are
modelled as association lists kept in insertion order, oldest entry first.
-/

namespace Zusound

/-- JS number with the non-finite values that matter for control flow. -/
inductive JSNum where
  | nan
  | inf
  | negInf
  | fin (q : ℚ)
deriving DecidableEq, Repr

/-- `Number.isFinite`. -/
def JSNum.isFinite : JSNum → Bool
  | .fin _ => true
  | _ => false

/-- The JS comparison `x < 0` (false for NaN). -/
def JSNum.isNegative : JSNum → Bool
  | .fin q => decide (q < 0)
  | .negInf => true
  | _ => false

/-- The JS comparison `x > 1` (false for NaN). -/
def JSNum.gtOne : JSNum → Bool
  | .fin q => decide (1 < q)
  | .inf => true
  | _ => false

/-- The rational value of a finite `JSNum` (junk value 0 elsewhere). -/
def JSNum.toQ : JSNum → ℚ
  | .fin q => q
  | _ => 0

/-- JS strict equality on numbers: `NaN` equals nothing, including itself. -/
def JSNum.strictEq : JSNum → JSNum → Bool
  | .fin a, .fin b => decide (a = b)
  | .inf, .inf => true
  | .negInf, .negInf => true
  | _, _ => false

/-! ## math.ts -/

/-- `clamp01` from `math.ts`, on finite reals. -/
def clamp01 (value : ℚ) : ℚ :=
  if value < 0 then 0 else if value > 1 then 1 else value

/-- `clamp01` from `math.ts`, on full JS numbers.  `NaN` fails both
comparisons and falls through unchanged; the infinities clamp. -/
def clamp01Js (value : JSNum) : JSNum :=
  if value.isNegative then .fin 0 else if value.gtOne then .fin 1 else value

/-- `lerp` from `math.ts`. -/
def lerp (a b t : ℚ) : ℚ := a + (b - a) * t

/-- JS `Math.round`: round half toward positive infinity. -/
def jsRound (q : ℚ) : ℤ := ⌊q + 1/2⌋

/-! ## Audio engine lifecycle (`src/unnamed/part_010`)

The runtime state consists of the module-level mutable variables
`activeAttachmentCount` (a JS number, modelled as `ℤ` so that the
impossibility of negative counts is a theorem, not a typing artifact)
and `audioContext` (modelled by whether a live context is held). -/

/-- The module-level mutable state of the audio runtime. -/
structure AudioState where
  activeAttachmentCount : ℤ
  contextAlive : Bool
deriving DecidableEq, Repr

/-- `cleanupAudio`: reset the count, stop the scheduler and close/discard
the AudioContext if one is held. -/
def cleanupAudio (_s : AudioState) : AudioState :=
  { activeAttachmentCount := 0, contextAlive := false }

/-- `retainAudioEngine`: increment the attachment count. -/
def retainAudioEngine (s : AudioState) : AudioState :=
  { s with activeAttachmentCount := s.activeAttachmentCount + 1 }

/-- The guarded decrement at the top of `releaseAudioEngine`. -/
def releaseDecrement (s : AudioState) : AudioState :=
  if 0 < s.activeAttachmentCount then
    { s with activeAttachmentCount := s.activeAttachmentCount - 1 }
  else s

/-- `releaseAudioEngine` invokes `cleanupAudio` exactly when the count after
the guarded decrement is zero. -/
def releaseTriggersCleanup (s : AudioState) : Bool :=
  decide ((releaseDecrement s).activeAttachmentCount = 0)

/-- `releaseAudioEngine`: guarded decrement, then teardown at zero. -/
def releaseAudioEngine (s : AudioState) : AudioState :=
  let s1 := releaseDecrement s
  if s1.activeAttachmentCount = 0 then cleanupAudio s1 else s1

/-- One call into the engine lifecycle: attach (retain) or detach (release). -/
inductive EngineOp where
  | retain
  | release
deriving DecidableEq, Repr

/-- Apply one lifecycle call to the runtime state. -/
def applyOp (s : AudioState) : EngineOp → AudioState
  | .retain => retainAudioEngine s
  | .release => releaseAudioEngine s

/-- Run a sequence of lifecycle calls. -/
def runOps (s : AudioState) : List EngineOp → AudioState
  | [] => s
  | op :: rest => runOps (applyOp s op) rest

/-- Number of retains in a call sequence. -/
def countRetains (ops : List EngineOp) : ℤ :=
  (ops.filter (fun op => op = .retain)).length

/-- Number of releases in a call sequence. -/
def countReleases (ops : List EngineOp) : ℤ :=
  (ops.filter (fun op => op = .release)).length

/-- Releases never outnumber retains: starting from running count `c`,
every release happens with a strictly positive running count. -/
def balancedFrom (c : ℤ) : List EngineOp → Bool
  | [] => true
  | .retain :: rest => balancedFrom (c + 1) rest
  | .release :: rest => decide (0 < c) && balancedFrom (c - 1) rest

/-! ## Change descriptors and the differ (`types.ts`, `differ.ts`)

JS values are modelled with objects, arrays and functions identified by an
abstract reference id (strict equality on composites is reference
equality); the primitive kinds carry their values. -/

/-- A JS value as seen by the differ. -/
inductive JSVal where
  | vnull
  | vundef
  | vbool (b : Bool)
  | vnum (n : JSNum)
  | vstr (s : String)
  | vobj (id : ℕ)
  | varr (id : ℕ)
  | vfunc (id : ℕ)
deriving DecidableEq, Repr

/-- `typeof v === "object"` (true for `null`, objects and arrays;
false for functions and primitives). -/
def typeofIsObject : JSVal → Bool
  | .vnull => true
  | .vobj _ => true
  | .varr _ => true
  | _ => false

/-- JS strict equality `===` (no coercions; `NaN !== NaN`; composites
compare by reference). -/
def strictEq : JSVal → JSVal → Bool
  | .vnull, .vnull => true
  | .vundef, .vundef => true
  | .vbool a, .vbool b => a = b
  | .vnum a, .vnum b => a.strictEq b
  | .vstr a, .vstr b => a = b
  | .vobj a, .vobj b => a = b
  | .varr a, .varr b => a = b
  | .vfunc a, .vfunc b => a = b
  | _, _ => false

/-- The change operations of `types.ts`. -/
inductive Operation where
  | add
  | remove
  | update
deriving DecidableEq, Repr

/-- The value-type classification of `types.ts`. -/
inductive ValueType where
  | string
  | number
  | boolean
  | object
  | array
deriving DecidableEq, Repr

/-- `getValueType` from `differ.ts`. -/
def getValueType : JSVal → ValueType
  | .vnull => .object
  | .vundef => .object
  | .varr _ => .array
  | .vstr _ => .string
  | .vnum _ => .number
  | .vbool _ => .boolean
  | .vobj _ => .object
  | .vfunc _ => .object

/-- A single detected state change (`Change` in `types.ts`). -/
structure Change where
  path : String
  operation : Operation
  valueType : ValueType
  newValue : JSVal
  oldValue : JSVal
deriving DecidableEq, Repr

/-- Specification-side notion for the differ claim: two snapshots are
identical by value when JS strict equality holds — value equality on
primitives (with the IEEE rule that `NaN` is identical to nothing) and
reference identity on composites. -/
def identicalByValue (a b : JSVal) : Bool := strictEq a b

/-- `detectChanges` from `differ.ts`.  The guard and the single-`root`
branch are translated verbatim; the both-composite branch (union of
top-level keys with the two-tier equality) is abstracted as the explicit
parameter `compositeDiff`, so every theorem below holds for an arbitrary
instantiation of it. -/
def detectChanges (compositeDiff : JSVal → JSVal → List Change)
    (currentState prevState : JSVal) : List Change :=
  if !typeofIsObject currentState || currentState = .vnull
      || !typeofIsObject prevState || prevState = .vnull then
    if strictEq currentState prevState then []
    else
      [{ path := "root", operation := .update,
         valueType := getValueType currentState,
         newValue := currentState, oldValue := prevState }]
  else compositeDiff currentState prevState

/-! ## Debounce-window deduplication (`adapter.ts`)

`deduplicateByPath` walks the accumulated changes from the newest to the
oldest, inserting the first encountered change per path into a JS `Map`
(insertion-ordered), and finally reverses the collected values. -/

/-- The backwards collection loop of `deduplicateByPath`: scan the (already
reversed) change list, keeping the first occurrence of each path; `seen`
is the set of paths already collected. -/
def collectLatest : List Change → List String → List Change
  | [], _ => []
  | c :: rest, seen =>
    if c.path ∈ seen then collectLatest rest seen
    else c :: collectLatest rest (c.path :: seen)

/-- `deduplicateByPath` from `adapter.ts`. -/
def deduplicateByPath (changes : List Change) : List Change :=
  (collectLatest changes.reverse []).reverse

/-- Specification-side formulation, from the words of the spec: keep only
each path's most recent entry, output order ascending by the original
position of each path's most recent occurrence.  Equivalently: keep
exactly the changes that have no later change with the same path, in
their original order. -/
def keepMostRecentPerPath : List Change → List Change
  | [] => []
  | c :: rest =>
    if rest.any (fun d => d.path = c.path) then keepMostRecentPerPath rest
    else c :: keepMostRecentPerPath rest

/-- The path set accumulated by `collectLatest` after scanning a list. -/
def seenAfter : List Change → List String → List String
  | [], seen => seen
  | c :: rest, seen =>
    if c.path ∈ seen then seenAfter rest seen
    else seenAfter rest (c.path :: seen)

/-- `keepMostRecentPerPath` generalized by a set of paths to exclude:
keep the changes whose path is not excluded and has no later occurrence. -/
def keepLastSeen : List Change → List String → List Change
  | [], _ => []
  | c :: rest, s =>
    if c.path ∈ s ∨ rest.any (fun d => d.path = c.path) = true then
      keepLastSeen rest s
    else c :: keepLastSeen rest s

/-! ## Interval ranking and roughness model (`src/unnamed/part_009`)

The Plomp-Levelt constants are exact decimal literals, so they embed as
rationals.  The host transcendentals are abstracted: `ex` stands for
`Math.exp`, `pow2` for `x ↦ Math.pow(2, x)`, and `att` for the rolloff
attenuation `(rolloff, n) ↦ Math.pow(10, -(rolloff * Math.log2 n) / 20)`. -/

/-- `MAX_HARMONICS` from `constants.ts`. -/
def MAX_HARMONICS : ℕ := 32

/-- `STAGGER_SECONDS` from `constants.ts`. -/
def STAGGER_SECONDS : ℚ := 4/100

/-- `MAX_STAGGER_SECONDS` from `constants.ts`. -/
def MAX_STAGGER_SECONDS : ℚ := 4/10

/-- `DSTAR = 0.24`. -/
def DSTAR : ℚ := 24/100

/-- `S1 = 0.0207`. -/
def S1 : ℚ := 207/10000

/-- `S2 = 18.96`. -/
def S2 : ℚ := 1896/100

/-- `C1 = 5`. -/
def C1 : ℚ := 5

/-- `C2 = -5`. -/
def C2 : ℚ := -5

/-- `A1 = -3.51`. -/
def A1 : ℚ := -351/100

/-- `A2 = -5.75`. -/
def A2 : ℚ := -575/100

/-- `quantize` from the dissonance module: round to the nearest step. -/
def quantize (value step : ℚ) : ℚ :=
  if step ≤ 0 then value else (jsRound (value / step) : ℚ) * step

/-- The harmonic-count cap `Math.min(MAX_HARMONICS, Math.max(1, Math.floor(n)))`
applied by `buildPartials`, `rankChromaticIntervals` and `createTimbreWave`. -/
def cappedHarmonics (numHarmonics : ℚ) : ℕ :=
  (min (MAX_HARMONICS : ℤ) (max 1 ⌊numHarmonics⌋)).toNat

/-- A harmonic partial (`HarmonicPartial`). -/
structure HarmonicPartial where
  frequency : ℚ
  amplitude : ℚ
deriving DecidableEq, Repr

/-- `buildPartials`: the harmonic series with inverse-square amplitudes,
attenuated by the brightness-controlled rolloff `att`. -/
def buildPartials (att : ℚ → ℕ → ℚ)
    (baseFrequency brightness numHarmonics : ℚ) : List HarmonicPartial :=
  let safeBrightness := clamp01 brightness
  let harmonics := cappedHarmonics numHarmonics
  let rolloffDbPerOct := (1 - safeBrightness) * 24
  (List.range harmonics).map fun i =>
    let n : ℕ := i + 1
    { frequency := baseFrequency * (n : ℚ),
      amplitude := (1 / ((n : ℚ) * (n : ℚ))) * att rolloffDbPerOct n }

/-- `pairDissonance`: sensory roughness between two partials, with `ex`
standing for `Math.exp`. -/
def pairDissonance (ex : ℚ → ℚ) (f1 f2 a1 a2 : ℚ) : ℚ :=
  let fmin := min f1 f2
  let s := DSTAR / (S1 * fmin + S2)
  let fdif := |f2 - f1|
  min a1 a2 * (C1 * ex (A1 * s * fdif) + C2 * ex (A2 * s * fdif))

/-- `intervalDissonance`: total roughness of a chromatic interval, summing
`pairDissonance` over every pair of partials of the two tones. -/
def intervalDissonance (ex pow2 : ℚ → ℚ) (att : ℚ → ℕ → ℚ)
    (baseFrequency : ℚ) (semitones : ℕ) (brightness numHarmonics : ℚ) : ℚ :=
  let f1 := baseFrequency
  let f2 := baseFrequency * pow2 ((semitones : ℚ) / 12)
  let p1 := buildPartials att f1 brightness numHarmonics
  let p2 := buildPartials att f2 brightness numHarmonics
  (p1.map fun u => (p2.map fun v =>
    pairDissonance ex u.frequency v.frequency u.amplitude v.amplitude).sum).sum

/-- Parameters of `rankChromaticIntervals` (`IntervalRankingParams`). -/
structure IntervalRankingParams where
  baseFrequency : Option ℚ
  brightness : ℚ
  numHarmonics : ℚ
  performanceMode : Bool
deriving DecidableEq, Repr

/-- Ranking parameters together with a pleasantness value. -/
structure PleasantnessParams extends IntervalRankingParams where
  pleasantness : ℚ
deriving DecidableEq, Repr

/-- The static `performanceMode` consonance ranking. -/
def staticConsonanceRanking : List ℕ := [0, 7, 5, 4, 3, 9, 8, 2, 10, 11, 1, 6]

/-- The ranking cache key.  In the source it is the string
`baseQ.toFixed(1) ++ ":" ++ brightnessQ.toFixed(3) ++ ":" ++ harmonics`;
that formatting is injective on the quantized values and every produced
key is a non-empty string, so the key is modelled as the underlying
triple. -/
abbrev RankingKey : Type := ℚ × ℚ × ℕ

/-- The global ranking cache: a JS `Map` modelled as an insertion-ordered
association list, oldest entry first. -/
abbrev RankingCache : Type := List (RankingKey × List ℕ)

/-- `MAX_RANKING_CACHE_ENTRIES`. -/
def MAX_RANKING_CACHE_ENTRIES : ℕ := 256

/-- `Map.get` on the ranking cache. -/
def cacheGet (cache : RankingCache) (key : RankingKey) : Option (List ℕ) :=
  match cache.find? (fun kv => kv.1 = key) with
  | some kv => some kv.2
  | none => none

/-- `Map.set` on an existing key: refresh the value, keep the position. -/
def cacheRefresh (cache : RankingCache) (key : RankingKey)
    (value : List ℕ) : RankingCache :=
  cache.map fun kv => if kv.1 = key then (kv.1, value) else kv

/-- `setRankingCache`: refresh in place when the key is present; otherwise
evict the oldest entry when full (the source guards the eviction with the
truthiness of the oldest key, which cannot fail because every produced key
is a non-empty string) and append the new entry. -/
def setRankingCache (cache : RankingCache) (key : RankingKey)
    (ranking : List ℕ) : RankingCache :=
  if (cacheGet cache key).isSome then cacheRefresh cache key ranking
  else
    let cache1 :=
      if MAX_RANKING_CACHE_ENTRIES ≤ cache.length then cache.drop 1 else cache
    cache1 ++ [(key, ranking)]

/-- The quantized cache key of a ranking request: frequency rounded to
0.1 Hz, brightness clamped and rounded to 0.001, harmonic count capped. -/
def rankingKey (params : IntervalRankingParams) : RankingKey :=
  (quantize (params.baseFrequency.getD 220) (1/10),
   quantize (clamp01 params.brightness) (1/1000),
   cappedHarmonics params.numHarmonics)

/-- The dissonance scorer as `rankChromaticIntervals` consumes it:
arguments are the raw base frequency, the semitone offset, the quantized
brightness and the capped harmonic count. -/
abbrev DissonanceFn : Type := ℚ → ℕ → ℚ → ℕ → ℚ

/-- The scorer actually used by the source, assembled from the abstracted
host transcendentals. -/
def dissonanceOf (ex pow2 : ℚ → ℚ) (att : ℚ → ℕ → ℚ) : DissonanceFn :=
  fun baseFrequency semitones brightness harmonics =>
    intervalDissonance ex pow2 att baseFrequency semitones brightness harmonics

/-- `rankChromaticIntervals`, parameterized by the dissonance scorer `D`
and explicitly threading the module-level cache.  The `.slice()` copies of
the source are identities on immutable lists. -/
def rankChromaticIntervals (D : DissonanceFn)
    (params : IntervalRankingParams) (cache : RankingCache) :
    List ℕ × RankingCache :=
  let baseFrequency := params.baseFrequency.getD 220
  if params.performanceMode then (staticConsonanceRanking, cache)
  else
    let brightnessQ := quantize (clamp01 params.brightness) (1/1000)
    let harmonics := cappedHarmonics params.numHarmonics
    let key := rankingKey params
    match cacheGet cache key with
    | some cached => (cached, cache)
    | none =>
      let scored := (List.range 12).map fun semitones =>
        (semitones, D baseFrequency semitones brightnessQ harmonics)
      let sorted := scored.insertionSort fun a b => a.2 ≤ b.2
      let ranking := sorted.map Prod.fst
      (ranking, setRankingCache cache key ranking)

/-- The ranking computed by `rankChromaticIntervals` on a cache miss:
score the 12 semitone offsets with the raw base frequency, the quantized
brightness and the capped harmonic count, stable-sort ascending by
dissonance and project the offsets. -/
def computedRanking (D : DissonanceFn) (params : IntervalRankingParams) :
    List ℕ :=
  ((((List.range 12).map fun semitones =>
      (semitones,
       D (params.baseFrequency.getD 220) semitones
         (quantize (clamp01 params.brightness) (1/1000))
         (cappedHarmonics params.numHarmonics))).insertionSort
    fun a b => a.2 ≤ b.2).map Prod.fst)

/-- The index selection of `mapPleasantnessToInterval` on an already
clamped pleasantness value: round `(1 - pleasantness) * (ranking.length - 1)`
to the nearest index; the JS read `ranking[index]` is `Option`-valued
exactly as a JS index read can be `undefined`. -/
def selectRanking (ranking : List ℕ) (pleasantness : ℚ) : Option ℕ :=
  ranking.get? (jsRound ((1 - pleasantness) * ((ranking.length : ℚ) - 1))).toNat

/-- The interpolation of `mapPleasantnessToIntervalContinuous` on an
already clamped pleasantness value: linear interpolation between the two
ranked semitone values bracketing the fractional position. -/
def interpolateRanking (ranking : List ℕ) (pleasantness : ℚ) : Option ℚ :=
  if (ranking.length : ℚ) - 1 ≤
      (⌊(1 - pleasantness) * ((ranking.length : ℚ) - 1)⌋ : ℚ) then
    (ranking.get? (ranking.length - 1)).map fun a => (a : ℚ)
  else
    match ranking.get?
        (⌊(1 - pleasantness) * ((ranking.length : ℚ) - 1)⌋).toNat,
      ranking.get?
        ((⌊(1 - pleasantness) * ((ranking.length : ℚ) - 1)⌋).toNat + 1) with
    | some a, some b =>
      some ((a : ℚ) + ((b : ℚ) - a) *
        ((1 - pleasantness) * ((ranking.length : ℚ) - 1) -
         (⌊(1 - pleasantness) * ((ranking.length : ℚ) - 1)⌋ : ℚ)))
    | _, _ => none

/-- `mapPleasantnessToInterval`: clamp the pleasantness, rank the
intervals, select the nearest ranking index. -/
def mapPleasantnessToInterval (D : DissonanceFn)
    (params : PleasantnessParams) (cache : RankingCache) :
    Option ℕ × RankingCache :=
  let pleasantness := clamp01 params.pleasantness
  let (ranking, cache1) :=
    rankChromaticIntervals D params.toIntervalRankingParams cache
  (selectRanking ranking pleasantness, cache1)

/-- `mapPleasantnessToIntervalContinuous`: clamp the pleasantness, rank
the intervals, interpolate between the bracketing ranked values. -/
def mapPleasantnessToIntervalContinuous (D : DissonanceFn)
    (params : PleasantnessParams) (cache : RankingCache) :
    Option ℚ × RankingCache :=
  let pleasantness := clamp01 params.pleasantness
  let (ranking, cache1) :=
    rankChromaticIntervals D params.toIntervalRankingParams cache
  (interpolateRanking ranking pleasantness, cache1)

/-! ## PeriodicWave synthesis (`synthesis.ts`)

A `PeriodicWave` is modelled by the `real`/`imag` coefficient tables the
source hands to `createPeriodicWave`; the per-context cache key
`"timbre:" ++ brightness.toFixed(3) ++ ":" ++ harmonics` is modelled as
the underlying pair (the formatting is injective on quantized values). -/

/-- The coefficient tables of a constructed `PeriodicWave`. -/
structure PeriodicWaveSpec where
  real : List ℚ
  imag : List ℚ
deriving DecidableEq, Repr

/-- One audio context's wave cache, insertion-ordered. -/
abbrev WaveCache : Type := List ((ℚ × ℕ) × PeriodicWaveSpec)

/-- `quantizeBrightness` from `synthesis.ts`. -/
def quantizeBrightness (brightness : ℚ) : ℚ :=
  (jsRound (clamp01 brightness * 1000) : ℚ) / 1000

/-- `createWave`: return the cached wave for the key, or build the tables
(`real` all zero, `imag[n] = amplitudeForHarmonic n` for `1 ≤ n ≤ N`) and
cache them. -/
def createWave (cache : WaveCache) (key : ℚ × ℕ) (numHarmonics : ℕ)
    (amplitudeForHarmonic : ℕ → ℚ) : PeriodicWaveSpec × WaveCache :=
  match cache.find? (fun kv => kv.1 = key) with
  | some kv => (kv.2, cache)
  | none =>
    let real := List.replicate (numHarmonics + 1) (0 : ℚ)
    let imag := 0 :: (List.range numHarmonics).map fun i =>
      amplitudeForHarmonic (i + 1)
    let wave : PeriodicWaveSpec := { real := real, imag := imag }
    (wave, cache ++ [(key, wave)])

/-- `createTimbreWave`: cap the harmonic count, quantize brightness, and
build (or fetch) the rolloff-attenuated harmonic table.  `att` abstracts
`(rolloff, n) ↦ Math.pow(10, -(rolloff * Math.log2 n) / 20)`. -/
def createTimbreWave (att : ℚ → ℕ → ℚ) (cache : WaveCache)
    (brightness numHarmonics : ℚ) : PeriodicWaveSpec × WaveCache :=
  let harmonics := cappedHarmonics numHarmonics
  let safeBrightness := quantizeBrightness brightness
  let key := (safeBrightness, harmonics)
  let rolloffDbPerOct := (1 - safeBrightness) * 24
  createWave cache key harmonics fun n =>
    (1 / ((n : ℚ) * (n : ℚ))) * att rolloffDbPerOct n

/-! ## Lookahead task scheduler (`scheduler.ts`)

The callback payload is an abstract type `τ`; a `SchedulerState` carries
the per-context queue, the id counter and the pump-arming flags. -/

/-- A queued task (`ScheduledItem`). -/
structure ScheduledItem (τ : Type) where
  time : ℚ
  id : ℕ
  run : τ

/-- Per-context scheduler state. -/
structure SchedulerState (τ : Type) where
  items : List (ScheduledItem τ)
  timer : Bool
  microtaskScheduled : Bool
  nextId : ℕ

/-- The insertion loop of `scheduleAudioTask`: splice the new item in
before the first queued item with a strictly later time (ties keep the
earlier-scheduled item first). -/
def insertByTime {τ : Type} (item : ScheduledItem τ) :
    List (ScheduledItem τ) → List (ScheduledItem τ)
  | [] => [item]
  | x :: xs =>
    if item.time < x.time then item :: x :: xs else x :: insertByTime item xs

/-- `scheduleAudioTask`: reject non-finite or negative times with `-1` and
an untouched state; otherwise allocate an id, insert in time order and arm
the first pump dispatch. -/
def scheduleAudioTask {τ : Type} (state : SchedulerState τ) (time : JSNum)
    (run : τ) : ℤ × SchedulerState τ :=
  if !time.isFinite || time.isNegative then (-1, state)
  else
    let id := state.nextId
    let item : ScheduledItem τ := { time := time.toQ, id := id, run := run }
    let items1 := insertByTime item state.items
    let micro1 :=
      if !state.timer && !state.microtaskScheduled then true
      else state.microtaskScheduled
    ((id : ℤ),
     { items := items1, timer := state.timer,
       microtaskScheduled := micro1, nextId := state.nextId + 1 })

/-! ## Aesthetic parameter merge (`src/unnamed/part_010`)

Field values are `JSNum` so the behaviour of `clamp01` on every JS number
is captured.  An override layer is a partial record: `none` models a field
the layer does not define as a number. -/

/-- Fully-resolved aesthetic parameters (`AestheticParams`). -/
structure AestheticParams where
  pleasantness : JSNum
  brightness : JSNum
  arousal : JSNum
  valence : JSNum
  simultaneity : JSNum
  baseMidi : Option JSNum
  duration : Option JSNum
deriving DecidableEq, Repr

/-- A partial override layer (`Partial AestheticParams`). -/
structure PartialAesthetics where
  pleasantness : Option JSNum
  brightness : Option JSNum
  arousal : Option JSNum
  valence : Option JSNum
  simultaneity : Option JSNum
  baseMidi : Option JSNum
  duration : Option JSNum
deriving DecidableEq, Repr

/-- The empty override layer. -/
def PartialAesthetics.empty : PartialAesthetics :=
  { pleasantness := none, brightness := none, arousal := none,
    valence := none, simultaneity := none, baseMidi := none,
    duration := none }

/-- The body of the override loop of `mergeAesthetics`: a `none` layer
(an `undefined` entry) is skipped, and each defined field overwrites the
merged value. -/
def applyOverride (merged : AestheticParams)
    (override : Option PartialAesthetics) : AestheticParams :=
  match override with
  | none => merged
  | some o =>
    { pleasantness := o.pleasantness.getD merged.pleasantness,
      brightness := o.brightness.getD merged.brightness,
      arousal := o.arousal.getD merged.arousal,
      valence := o.valence.getD merged.valence,
      simultaneity := o.simultaneity.getD merged.simultaneity,
      baseMidi := match o.baseMidi with
        | some v => some v
        | none => merged.baseMidi,
      duration := match o.duration with
        | some v => some v
        | none => merged.duration }

/-- `mergeAesthetics`: apply the override layers in order, then clamp the
five bounded fields. -/
def mergeAesthetics (base : AestheticParams)
    (overrides : List (Option PartialAesthetics)) : AestheticParams :=
  let merged := overrides.foldl applyOverride base
  { merged with
    pleasantness := clamp01Js merged.pleasantness,
    brightness := clamp01Js merged.brightness,
    arousal := clamp01Js merged.arousal,
    valence := clamp01Js merged.valence,
    simultaneity := clamp01Js merged.simultaneity }

/-- A `JSNum` lies within the closed unit interval. -/
def inUnitInterval (v : JSNum) : Bool :=
  match v with
  | .fin q => decide (0 ≤ q ∧ q ≤ 1)
  | _ => false

/-! ## Invariants and concrete instances used in the statements below -/

/-- Well-formedness of the ranking cache: every stored ranking is a
permutation of the 12 semitone offsets.  This holds for the empty initial
cache and is preserved by every call. -/
def WFRankingCache (cache : RankingCache) : Prop :=
  ∀ kv ∈ cache, kv.2.Perm (List.range 12)

/-- None of the five bounded fields of a resolved parameter set is `NaN`. -/
def noNanBounded (a : AestheticParams) : Bool :=
  !(a.pleasantness == .nan) && !(a.brightness == .nan) && !(a.arousal == .nan)
    && !(a.valence == .nan) && !(a.simultaneity == .nan)

/-- An override layer defines no bounded field as `NaN`. -/
def noNanOverride (o : Option PartialAesthetics) : Bool :=
  match o with
  | none => true
  | some po =>
    !(po.pleasantness == some .nan) && !(po.brightness == some .nan)
      && !(po.arousal == some .nan) && !(po.valence == some .nan)
      && !(po.simultaneity == some .nan)

/-- A concrete dissonance scorer (all intervals tie at roughness 0). -/
def zeroDissonance : DissonanceFn := fun _ _ _ _ => 0

/-- A concrete attenuation instantiation. -/
def oneAtt : ℚ → ℕ → ℚ := fun _ _ => 1

/-- Concrete non-`performanceMode` ranking parameters. -/
def sampleParams : IntervalRankingParams :=
  { baseFrequency := none, brightness := 1/2, numHarmonics := 10,
    performanceMode := false }

/-- Concrete `performanceMode` ranking parameters. -/
def perfParams : IntervalRankingParams :=
  { baseFrequency := none, brightness := 1/2, numHarmonics := 10,
    performanceMode := true }

/-- A full ranking cache holding 256 distinct keys. -/
def fullCache : RankingCache :=
  (List.range 256).map fun i => (((i : ℚ), 0, 0), [])

/-- A first change to path `a`. -/
def changeA1 : Change :=
  { path := "a", operation := .update, valueType := .number,
    newValue := .vnum (.fin 1), oldValue := .vnum (.fin 0) }

/-- A change to path `b`. -/
def changeB : Change :=
  { path := "b", operation := .update, valueType := .number,
    newValue := .vnum (.fin 2), oldValue := .vnum (.fin 0) }

/-- A second, later change to path `a`. -/
def changeA2 : Change :=
  { path := "a", operation := .update, valueType := .number,
    newValue := .vnum (.fin 3), oldValue := .vnum (.fin 1) }

/-- The baseline aesthetics of an `update` to a number-valued key
(`defaultAesthetics` output shape; concrete values for witnesses). -/
def baseAesthetics : AestheticParams :=
  { pleasantness := .fin (7/10), brightness := .fin (55/100),
    arousal := .fin (6/10), valence := .fin (6/10), simultaneity := .fin 1,
    baseMidi := some (.fin 69), duration := none }

/-- An override layer defining `pleasantness` as `NaN`. -/
def nanOverride : PartialAesthetics :=
  { PartialAesthetics.empty with pleasantness := some .nan }

/-- An override layer defining `pleasantness` as the out-of-range number 2. -/
def bigOverride : PartialAesthetics :=
  { PartialAesthetics.empty with pleasantness := some (.fin 2) }

/-- An idle scheduler state. -/
def idleScheduler : SchedulerState ℕ :=
  { items := [], timer := false, microtaskScheduled := false, nextId := 1 }

theorem collectLatest_append (xs ys : List Change) :
    ∀ s : List String,
      collectLatest (xs ++ ys) s =
        collectLatest xs s ++ collectLatest ys (seenAfter xs s) := by
  induction xs with
  | nil => intro s; rfl
  | cons c rest ih =>
    intro s
    by_cases hc : c.path ∈ s
    · simp only [List.cons_append, collectLatest, seenAfter, if_pos hc]
      exact ih s
    · simp only [List.cons_append, collectLatest, seenAfter, if_neg hc]
      exact congrArg (List.cons c) (ih (c.path :: s))

theorem mem_seenAfter (xs : List Change) :
    ∀ (s : List String) (p : String),
      p ∈ seenAfter xs s ↔ (∃ c ∈ xs, c.path = p) ∨ p ∈ s := by
  induction xs with
  | nil => intro s p; simp [seenAfter]
  | cons c rest ih =>
    intro s p
    by_cases hc : c.path ∈ s
    · rw [seenAfter, if_pos hc, ih]
      constructor
      · rintro (⟨d, hd, hdp⟩ | hp)
        · exact Or.inl ⟨d, List.mem_cons_of_mem _ hd, hdp⟩
        · exact Or.inr hp
      · rintro (⟨d, hd, hdp⟩ | hp)
        · rcases List.mem_cons.mp hd with rfl | hd2
          · exact Or.inr (hdp ▸ hc)
          · exact Or.inl ⟨d, hd2, hdp⟩
        · exact Or.inr hp
    · rw [seenAfter, if_neg hc, ih]
      simp only [List.mem_cons]
      constructor
      · rintro (⟨d, hd, hdp⟩ | (rfl | hp))
        · exact Or.inl ⟨d, Or.inr hd, hdp⟩
        · exact Or.inl ⟨c, Or.inl rfl, rfl⟩
        · exact Or.inr hp
      · rintro (⟨d, rfl | hd2, hdp⟩ | hp)
        · exact Or.inr (Or.inl hdp.symm)
        · exact Or.inl ⟨d, hd2, hdp⟩
        · exact Or.inr (Or.inr hp)

theorem collectLatest_reverse (l : List Change) :
    ∀ s : List String,
      collectLatest l.reverse s = (keepLastSeen l s).reverse := by
  induction l with
  | nil => intro s; rfl
  | cons c rest ih =>
    intro s
    rw [List.reverse_cons, collectLatest_append, ih]
    by_cases hc : c.path ∈ seenAfter rest.reverse s
    · have hcond : c.path ∈ s ∨ rest.any (fun d => d.path = c.path) = true := by
        rcases (mem_seenAfter _ _ _).mp hc with ⟨d, hd, hdp⟩ | hp
        · refine Or.inr (List.any_eq_true.mpr ⟨d, List.mem_reverse.mp hd, ?_⟩)
          simp [hdp]
        · exact Or.inl hp
      rw [keepLastSeen, if_pos hcond]
      simp [collectLatest, hc]
    · have hcond : ¬(c.path ∈ s ∨ rest.any (fun d => d.path = c.path) = true) := by
        rintro (hp | hb)
        · exact hc ((mem_seenAfter _ _ _).mpr (Or.inr hp))
        · rcases List.any_eq_true.mp hb with ⟨d, hd, hdp⟩
          refine hc ((mem_seenAfter _ _ _).mpr (Or.inl ⟨d, List.mem_reverse.mpr hd, ?_⟩))
          exact of_decide_eq_true hdp
      rw [keepLastSeen, if_neg hcond]
      simp [collectLatest, hc]

theorem keepLastSeen_nil : ∀ l : List Change,
    keepLastSeen l [] = keepMostRecentPerPath l := by
  intro l
  induction l with
  | nil => rfl
  | cons c rest ih =>
    by_cases h : rest.any (fun d => d.path = c.path) = true
    · rw [keepLastSeen, if_pos (Or.inr h), keepMostRecentPerPath, if_pos h, ih]
    · rw [keepLastSeen, if_neg ?_, keepMostRecentPerPath, if_neg h, ih]
      rintro (hs | hb)
      · exact List.not_mem_nil _ hs
      · exact h hb

/-- C2. Within one debounce window the flushed batch keeps, for each path,
exactly the last-occurring change with that path, ordered ascending by the
original position of each path's most-recent occurrence; in particular
accumulated changes to paths `a, b, a` flush to exactly the two changes
`b` then the second `a`-change. -/
theorem c2_dedup_keeps_most_recent_per_path :
    (∀ changes : List Change,
      deduplicateByPath changes = keepMostRecentPerPath changes) ∧
    deduplicateByPath [changeA1, changeB, changeA2] = [changeB, changeA2] := by
  constructor
  · intro changes
    rw [deduplicateByPath, collectLatest_reverse, keepLastSeen_nil,
      List.reverse_reverse]
  · decide

/-! ## Audio engine lifecycle (claims C1 and C10) -/

theorem countRetains_nil : countRetains [] = 0 := rfl

theorem countReleases_nil : countReleases [] = 0 := rfl

theorem countRetains_retain_cons (ops : List EngineOp) :
    countRetains (.retain :: ops) = countRetains ops + 1 := by
  simp [countRetains, List.filter_cons]

theorem countRetains_release_cons (ops : List EngineOp) :
    countRetains (.release :: ops) = countRetains ops := by
  simp [countRetains, List.filter_cons]

theorem countReleases_retain_cons (ops : List EngineOp) :
    countReleases (.retain :: ops) = countReleases ops := by
  simp [countReleases, List.filter_cons]

theorem countReleases_release_cons (ops : List EngineOp) :
    countReleases (.release :: ops) = countReleases ops + 1 := by
  simp [countReleases, List.filter_cons]

theorem countRetains_append (xs ys : List EngineOp) :
    countRetains (xs ++ ys) = countRetains xs + countRetains ys := by
  simp [countRetains, List.filter_append]

theorem countReleases_append (xs ys : List EngineOp) :
    countReleases (xs ++ ys) = countReleases xs + countReleases ys := by
  simp [countReleases, List.filter_append]

theorem balancedFrom_append (ys : List EngineOp) :
    ∀ (xs : List EngineOp) (c : ℤ),
      balancedFrom c (xs ++ ys) =
        (balancedFrom c xs &&
          balancedFrom (c + countRetains xs - countReleases xs) ys) := by
  intro xs
  induction xs with
  | nil =>
    intro c
    have h : c + countRetains [] - countReleases [] = c := by
      rw [countRetains_nil, countReleases_nil]; ring
    rw [List.nil_append, h, balancedFrom, Bool.true_and]
  | cons op rest ih =>
    intro c
    cases op with
    | retain =>
      simp only [List.cons_append, balancedFrom]
      have e : rest.append ys = rest ++ ys := rfl
      rw [e, ih (c + 1)]
      have h : c + 1 + countRetains rest - countReleases rest =
          c + countRetains (EngineOp.retain :: rest) -
            countReleases (EngineOp.retain :: rest) := by
        rw [countRetains_retain_cons, countReleases_retain_cons]; ring
      rw [h]
    | release =>
      simp only [List.cons_append, balancedFrom]
      have e : rest.append ys = rest ++ ys := rfl
      rw [e, ih (c - 1)]
      have h : c - 1 + countRetains rest - countReleases rest =
          c + countRetains (EngineOp.release :: rest) -
            countReleases (EngineOp.release :: rest) := by
        rw [countRetains_release_cons, countReleases_release_cons]; ring
      rw [h, Bool.and_assoc]

theorem balancedFrom_take (ops : List EngineOp) :
    ∀ (c : ℤ) (i : ℕ), balancedFrom c ops = true →
      balancedFrom c (ops.take i) = true := by
  induction ops with
  | nil => intro c i _; simp [balancedFrom]
  | cons op rest ih =>
    intro c i h
    cases i with
    | zero => rfl
    | succ n =>
      cases op with
      | retain =>
        rw [List.take_succ_cons]
        rw [balancedFrom] at h ⊢
        exact ih (c + 1) n h
      | release =>
        rw [List.take_succ_cons]
        rw [balancedFrom, Bool.and_eq_true] at h ⊢
        exact ⟨h.1, ih (c - 1) n h.2⟩

theorem releaseAudioEngine_eq (s : AudioState) :
    releaseAudioEngine s =
      if (releaseDecrement s).activeAttachmentCount = 0 then
        cleanupAudio (releaseDecrement s)
      else releaseDecrement s := rfl

theorem releaseDecrement_count (s : AudioState) :
    (releaseDecrement s).activeAttachmentCount =
      if 0 < s.activeAttachmentCount then s.activeAttachmentCount - 1
      else s.activeAttachmentCount := by
  unfold releaseDecrement
  split_ifs <;> rfl

theorem releaseAudioEngine_count (s : AudioState) :
    (releaseAudioEngine s).activeAttachmentCount =
      if (releaseDecrement s).activeAttachmentCount = 0 then 0
      else (releaseDecrement s).activeAttachmentCount := by
  rw [releaseAudioEngine_eq]
  split_ifs <;> rfl

theorem runOps_count (ops : List EngineOp) :
    ∀ (c : ℤ) (alive : Bool), 0 ≤ c → balancedFrom c ops = true →
      (runOps ⟨c, alive⟩ ops).activeAttachmentCount =
        c + countRetains ops - countReleases ops := by
  induction ops with
  | nil =>
    intro c alive _ _
    rw [runOps, countRetains_nil, countReleases_nil]
    ring
  | cons op rest ih =>
    intro c alive h0 hb
    cases op with
    | retain =>
      rw [balancedFrom] at hb
      have hstep : applyOp ⟨c, alive⟩ .retain =
          ({ activeAttachmentCount := c + 1, contextAlive := alive } :
            AudioState) := rfl
      rw [runOps, hstep, ih (c + 1) alive (by omega) hb,
        countRetains_retain_cons, countReleases_retain_cons]
      ring
    | release =>
      rw [balancedFrom, Bool.and_eq_true, decide_eq_true_eq] at hb
      obtain ⟨hc, hb2⟩ := hb
      by_cases hz : c - 1 = 0
      · have hstep : applyOp ⟨c, alive⟩ .release =
            ({ activeAttachmentCount := 0, contextAlive := false } :
              AudioState) := by
          show releaseAudioEngine ⟨c, alive⟩ = _
          rw [releaseAudioEngine_eq]
          have hd : releaseDecrement ⟨c, alive⟩ =
              ({ activeAttachmentCount := c - 1, contextAlive := alive } :
                AudioState) := by
            unfold releaseDecrement
            rw [if_pos hc]
          rw [hd, if_pos hz]
          rfl
        rw [runOps, hstep, ih 0 false (le_refl 0) (by rw [← hz]; exact hb2),
          countRetains_release_cons, countReleases_release_cons]
        omega
      · have hstep : applyOp ⟨c, alive⟩ .release =
            ({ activeAttachmentCount := c - 1, contextAlive := alive } :
              AudioState) := by
          show releaseAudioEngine ⟨c, alive⟩ = _
          rw [releaseAudioEngine_eq]
          have hd : releaseDecrement ⟨c, alive⟩ =
              ({ activeAttachmentCount := c - 1, contextAlive := alive } :
                AudioState) := by
            unfold releaseDecrement
            rw [if_pos hc]
          rw [hd, if_neg hz]
        rw [runOps, hstep, ih (c - 1) alive (by omega) hb2,
          countRetains_release_cons, countReleases_release_cons]
        ring

/-- C1. Under any retain/release sequence in which releases never
outnumber retains, a release invokes the engine teardown (`cleanupAudio`:
scheduler stopped, context closed and discarded) exactly when it brings
the retain count back to zero — and a retain never changes whether the
context is alive. -/
theorem c1_teardown_exactly_at_zero_release
    (ops : List EngineOp) (alive : Bool)
    (hbal : balancedFrom 0 ops = true)
    (i : ℕ) (hi : i < ops.length)
    (hrel : ops.get ⟨i, hi⟩ = .release) :
    (∀ s : AudioState, (retainAudioEngine s).contextAlive = s.contextAlive) ∧
    (releaseTriggersCleanup (runOps ⟨0, alive⟩ (ops.take i)) = true ↔
      countRetains (ops.take (i + 1)) = countReleases (ops.take (i + 1))) := by
  refine ⟨fun s => rfl, ?_⟩
  have htake : ops.take (i + 1) = ops.take i ++ [EngineOp.release] := by
    have hget : ops[i]? = some EngineOp.release := by
      rw [List.getElem?_eq_getElem hi]
      simp only [List.get_eq_getElem] at hrel
      exact congrArg some hrel
    rw [List.take_succ, hget]
    rfl
  have hbx : balancedFrom 0 (ops.take i) = true := balancedFrom_take ops 0 i hbal
  have hb1 : balancedFrom 0 (ops.take (i + 1)) = true :=
    balancedFrom_take ops 0 (i + 1) hbal
  rw [htake, balancedFrom_append, Bool.and_eq_true] at hb1
  have hpos : 0 < 0 + countRetains (ops.take i) - countReleases (ops.take i) := by
    have h2 := hb1.2
    rw [balancedFrom, Bool.and_eq_true, decide_eq_true_eq] at h2
    exact h2.1
  have hk : (runOps ⟨0, alive⟩ (ops.take i)).activeAttachmentCount =
      countRetains (ops.take i) - countReleases (ops.take i) := by
    rw [runOps_count (ops.take i) 0 alive (le_refl 0) hbx]
    ring
  rw [releaseTriggersCleanup, decide_eq_true_eq, releaseDecrement_count, hk,
    if_pos (by omega), htake, countRetains_append, countReleases_append]
  have hr1 : countRetains [EngineOp.release] = 0 := rfl
  have hr2 : countReleases [EngineOp.release] = 1 := rfl
  rw [hr1, hr2]
  omega

/-- Witness for C1: two attachments retained; the first release leaves the
engine alive at count 1 and the second release tears it down. -/
theorem c1_witness :
    balancedFrom 0 [EngineOp.retain, .retain, .release, .release] = true ∧
    runOps ⟨0, true⟩ [EngineOp.retain, .retain, .release] =
      { activeAttachmentCount := 1, contextAlive := true } ∧
    releaseTriggersCleanup (runOps ⟨0, true⟩
      ([EngineOp.retain, .retain, .release, .release].take 3)) = true ∧
    runOps ⟨0, true⟩ [EngineOp.retain, .retain, .release, .release] =
      { activeAttachmentCount := 0, contextAlive := false } := by
  refine ⟨by decide, by decide, ?_, by decide⟩
  exact (c1_teardown_exactly_at_zero_release
    [EngineOp.retain, .retain, .release, .release] true (by decide)
    3 (by decide) (by decide)).2.mpr (by decide)

theorem applyOp_count_nonneg (s : AudioState) (op : EngineOp)
    (h : 0 ≤ s.activeAttachmentCount) :
    0 ≤ (applyOp s op).activeAttachmentCount := by
  cases op with
  | retain =>
    show 0 ≤ s.activeAttachmentCount + 1
    omega
  | release =>
    show 0 ≤ (releaseAudioEngine s).activeAttachmentCount
    rw [releaseAudioEngine_count, releaseDecrement_count]
    split_ifs <;> omega

theorem runOps_count_nonneg (ops : List EngineOp) :
    ∀ s : AudioState, 0 ≤ s.activeAttachmentCount →
      0 ≤ (runOps s ops).activeAttachmentCount := by
  induction ops with
  | nil => intro s h; exact h
  | cons op rest ih =>
    intro s h
    exact ih (applyOp s op) (applyOp_count_nonneg s op h)

/-- C10. The retain count never becomes negative: releasing at count zero
leaves the count at zero, a later retain brings it back to one, and that
retain's matching release still triggers teardown. -/
theorem c10_retain_count_never_negative :
    (∀ (ops : List EngineOp) (alive : Bool),
      0 ≤ (runOps ⟨0, alive⟩ ops).activeAttachmentCount) ∧
    (∀ s : AudioState, s.activeAttachmentCount = 0 →
      (releaseAudioEngine s).activeAttachmentCount = 0 ∧
      (retainAudioEngine (releaseAudioEngine s)).activeAttachmentCount = 1 ∧
      releaseTriggersCleanup (retainAudioEngine (releaseAudioEngine s)) = true ∧
      releaseAudioEngine (retainAudioEngine (releaseAudioEngine s)) =
        { activeAttachmentCount := 0, contextAlive := false }) := by
  constructor
  · intro ops alive
    exact runOps_count_nonneg ops ⟨0, alive⟩ (le_refl 0)
  · intro s h
    have hd : releaseDecrement s = s := by
      unfold releaseDecrement
      rw [if_neg (by omega)]
    have hrel : releaseAudioEngine s =
        ({ activeAttachmentCount := 0, contextAlive := false } : AudioState) := by
      rw [releaseAudioEngine_eq, hd, if_pos h]
      rfl
    rw [hrel]
    refine ⟨rfl, rfl, by decide, by decide⟩

/-- Witness for C10 at the zero-count state and a concrete over-releasing
call sequence. -/
theorem c10_witness :
    (0 ≤ (runOps ⟨0, true⟩
      [EngineOp.release, .release, .retain, .release]).activeAttachmentCount) ∧
    (releaseAudioEngine ⟨0, true⟩).activeAttachmentCount = 0 ∧
    (retainAudioEngine (releaseAudioEngine ⟨0, true⟩)).activeAttachmentCount = 1 ∧
    releaseTriggersCleanup (retainAudioEngine (releaseAudioEngine ⟨0, true⟩)) = true ∧
    releaseAudioEngine (retainAudioEngine (releaseAudioEngine ⟨0, true⟩)) =
      { activeAttachmentCount := 0, contextAlive := false } := by
  obtain ⟨h1, h2⟩ := c10_retain_count_never_negative
  obtain ⟨a, b, c, d⟩ := h2 ⟨0, true⟩ rfl
  exact ⟨h1 [EngineOp.release, .release, .retain, .release] true, a, b, c, d⟩

/-! ## Ranking cache (claims C5 and C3) -/

theorem cacheGet_cons (k1 : RankingKey) (v1 : List ℕ) (c : RankingCache)
    (k : RankingKey) :
    cacheGet ((k1, v1) :: c) k = if k1 = k then some v1 else cacheGet c k := by
  by_cases h : k1 = k
  · simp [cacheGet, List.find?, h]
  · simp [cacheGet, List.find?, h]

theorem cacheGet_nil (k : RankingKey) : cacheGet [] k = none := rfl

theorem cacheGet_eq_none (c : RankingCache) (k : RankingKey) :
    cacheGet c k = none ↔ ∀ kv ∈ c, kv.1 ≠ k := by
  induction c with
  | nil => simp [cacheGet_nil]
  | cons kv rest ih =>
    obtain ⟨k1, v1⟩ := kv
    rw [cacheGet_cons]
    by_cases h : k1 = k
    · simp [h]
    · simp only [if_neg h, ih, List.mem_cons]
      constructor
      · rintro hall kv2 (rfl | hm)
        · exact h
        · exact hall kv2 hm
      · intro hall kv2 hm
        exact hall kv2 (Or.inr hm)

theorem cacheGet_mem {c : RankingCache} {k : RankingKey} {v : List ℕ}
    (h : cacheGet c k = some v) : (k, v) ∈ c := by
  induction c with
  | nil => cases h
  | cons kv rest ih =>
    obtain ⟨k1, v1⟩ := kv
    rw [cacheGet_cons] at h
    by_cases hk : k1 = k
    · rw [if_pos hk] at h
      obtain rfl : v1 = v := by cases h; rfl
      rw [← hk]
      exact List.mem_cons_self _ _
    · rw [if_neg hk] at h
      exact List.mem_cons_of_mem _ (ih h)

theorem cacheGet_append_right (xs ys : RankingCache) (k : RankingKey)
    (h : cacheGet xs k = none) :
    cacheGet (xs ++ ys) k = cacheGet ys k := by
  induction xs with
  | nil => rfl
  | cons kv rest ih =>
    obtain ⟨k1, v1⟩ := kv
    rw [cacheGet_cons] at h
    rw [List.cons_append, cacheGet_cons]
    by_cases hk : k1 = k
    · rw [if_pos hk] at h; cases h
    · rw [if_neg hk] at h ⊢
      exact ih h

theorem cacheGet_refresh_self (c : RankingCache) (k : RankingKey)
    (v : List ℕ) :
    (cacheGet c k).isSome = true →
      cacheGet (cacheRefresh c k v) k = some v := by
  induction c with
  | nil => intro h; simp [cacheGet_nil] at h
  | cons kv rest ih =>
    intro h
    obtain ⟨k1, v1⟩ := kv
    by_cases hk : k1 = k
    · have hhead : cacheRefresh ((k1, v1) :: rest) k v =
          (k1, v) :: cacheRefresh rest k v := by
        simp [cacheRefresh, hk]
      rw [hhead, cacheGet_cons, if_pos hk]
    · have hhead : cacheRefresh ((k1, v1) :: rest) k v =
          (k1, v1) :: cacheRefresh rest k v := by
        simp [cacheRefresh, hk]
      rw [cacheGet_cons, if_neg hk] at h
      rw [hhead, cacheGet_cons, if_neg hk]
      exact ih h

theorem cacheRefresh_keys (c : RankingCache) (k : RankingKey) (v : List ℕ) :
    (cacheRefresh c k v).map Prod.fst = c.map Prod.fst := by
  induction c with
  | nil => rfl
  | cons kv rest ih =>
    by_cases hk : kv.1 = k
    · simp [cacheRefresh, hk] at ih ⊢
      exact ih
    · simp [cacheRefresh, hk] at ih ⊢
      exact ih

theorem cacheRefresh_length (c : RankingCache) (k : RankingKey) (v : List ℕ) :
    (cacheRefresh c k v).length = c.length := by
  simp [cacheRefresh]

theorem cacheGet_set_self (c : RankingCache) (k : RankingKey) (v : List ℕ) :
    cacheGet (setRankingCache c k v) k = some v := by
  unfold setRankingCache
  by_cases hp : (cacheGet c k).isSome = true
  · rw [if_pos hp]
    exact cacheGet_refresh_self c k v hp
  · rw [if_neg hp]
    have hnone : cacheGet c k = none := by
      cases hcg : cacheGet c k with
      | none => rfl
      | some v2 => rw [hcg] at hp; simp at hp
    have hnone1 :
        cacheGet (if MAX_RANKING_CACHE_ENTRIES ≤ c.length then c.drop 1 else c)
          k = none := by
      split_ifs with hfull
      · rw [cacheGet_eq_none] at hnone ⊢
        intro kv hkv
        exact hnone kv (List.mem_of_mem_drop hkv)
      · exact hnone
    rw [cacheGet_append_right _ _ _ hnone1, cacheGet_cons, if_pos rfl]

theorem setRankingCache_length_le (c : RankingCache) (k : RankingKey)
    (v : List ℕ) (h : c.length ≤ MAX_RANKING_CACHE_ENTRIES) :
    (setRankingCache c k v).length ≤ MAX_RANKING_CACHE_ENTRIES := by
  unfold setRankingCache
  split_ifs with h1 h2
  · rw [cacheRefresh_length]
    exact h
  · rw [List.length_append, List.length_drop]
    simp only [List.length_singleton, MAX_RANKING_CACHE_ENTRIES] at h h1 ⊢
    omega
  · rw [List.length_append]
    simp only [List.length_singleton, MAX_RANKING_CACHE_ENTRIES] at h h2 ⊢
    omega

theorem foldl_setRankingCache_length_le
    (inserts : List (RankingKey × List ℕ)) :
    ∀ c : RankingCache, c.length ≤ MAX_RANKING_CACHE_ENTRIES →
      ((inserts.foldl (fun c2 kv => setRankingCache c2 kv.1 kv.2)
        c).length ≤ MAX_RANKING_CACHE_ENTRIES) := by
  induction inserts with
  | nil => intro c h; exact h
  | cons kv rest ih =>
    intro c h
    exact ih _ (setRankingCache_length_le c kv.1 kv.2 h)

/-- C5. The ranking cache is bounded by 256 entries after any insertion
sequence; inserting a new key into a full cache evicts the oldest entry
(the head of the insertion order); re-inserting an existing key refreshes
its value without changing any key's position. -/
theorem c5_ranking_cache_bounded_fifo :
    (∀ inserts : List (RankingKey × List ℕ),
      ((inserts.foldl (fun c kv => setRankingCache c kv.1 kv.2)
        ([] : RankingCache)).length ≤ MAX_RANKING_CACHE_ENTRIES)) ∧
    (∀ (c : RankingCache) (k : RankingKey) (v : List ℕ),
      MAX_RANKING_CACHE_ENTRIES ≤ c.length → cacheGet c k = none →
      setRankingCache c k v = c.drop 1 ++ [(k, v)]) ∧
    (∀ (c : RankingCache) (k : RankingKey) (v : List ℕ),
      (cacheGet c k).isSome = true →
      (setRankingCache c k v).map Prod.fst = c.map Prod.fst ∧
      cacheGet (setRankingCache c k v) k = some v) := by
  refine ⟨?_, ?_, ?_⟩
  · intro inserts
    exact foldl_setRankingCache_length_le inserts [] (by decide)
  · intro c k v hfull hnone
    unfold setRankingCache
    rw [if_neg (by rw [hnone]; simp), if_pos hfull]
  · intro c k v hsome
    constructor
    · unfold setRankingCache
      rw [if_pos hsome]
      exact cacheRefresh_keys c k v
    · exact cacheGet_set_self c k v

set_option maxRecDepth 10000 in
/-- Witness for C5: a singleton insertion respects the bound; a full
256-entry cache evicts its oldest key for a fresh key; refreshing an
existing key keeps the key list and stores the new value. -/
theorem c5_witness :
    (([((((1 : ℚ), (1 : ℚ), (1 : ℕ)) : RankingKey), ([0] : List ℕ))].foldl
      (fun c kv => setRankingCache c kv.1 kv.2)
      ([] : RankingCache)).length ≤ MAX_RANKING_CACHE_ENTRIES) ∧
    MAX_RANKING_CACHE_ENTRIES ≤ fullCache.length ∧
    cacheGet fullCache (999, 0, 0) = none ∧
    setRankingCache fullCache (999, 0, 0) [7] =
      fullCache.drop 1 ++ [((999, 0, 0), [7])] ∧
    (cacheGet [(((1 : ℚ), (0 : ℚ), (0 : ℕ)), [1])] (1, 0, 0)).isSome = true ∧
    (setRankingCache [(((1 : ℚ), (0 : ℚ), (0 : ℕ)), [1])] (1, 0, 0) [9]).map
        Prod.fst =
      ([(((1 : ℚ), (0 : ℚ), (0 : ℕ)), [1])] : RankingCache).map Prod.fst ∧
    cacheGet (setRankingCache [(((1 : ℚ), (0 : ℚ), (0 : ℕ)), [1])]
      (1, 0, 0) [9]) (1, 0, 0) = some [9] := by
  have hfull : MAX_RANKING_CACHE_ENTRIES ≤ fullCache.length := by decide
  have hnone : cacheGet fullCache (999, 0, 0) = none := by decide
  have hsome :
      (cacheGet [(((1 : ℚ), (0 : ℚ), (0 : ℕ)), [1])] (1, 0, 0)).isSome =
        true := by decide
  obtain ⟨h1, h2, h3⟩ := c5_ranking_cache_bounded_fifo
  obtain ⟨h4, h5⟩ := h3 [(((1 : ℚ), (0 : ℚ), (0 : ℕ)), [1])] (1, 0, 0) [9] hsome
  exact ⟨h1 _, hfull, hnone, h2 fullCache (999, 0, 0) [7] hfull hnone,
    hsome, h4, h5⟩

theorem computedRanking_perm (D : DissonanceFn)
    (params : IntervalRankingParams) :
    (computedRanking D params).Perm (List.range 12) := by
  unfold computedRanking
  have h1 := (List.perm_insertionSort (fun a b : ℕ × ℚ => a.2 ≤ b.2)
    ((List.range 12).map fun semitones =>
      (semitones,
       D (params.baseFrequency.getD 220) semitones
         (quantize (clamp01 params.brightness) (1/1000))
         (cappedHarmonics params.numHarmonics)))).map Prod.fst
  have h2 : (((List.range 12).map fun semitones =>
      (semitones,
       D (params.baseFrequency.getD 220) semitones
         (quantize (clamp01 params.brightness) (1/1000))
         (cappedHarmonics params.numHarmonics))).map Prod.fst) =
      List.range 12 := by
    rw [List.map_map]
    exact List.map_id _
  rw [h2] at h1
  exact h1

theorem rank_of_performanceMode (D : DissonanceFn)
    (p : IntervalRankingParams) (c : RankingCache)
    (hperf : p.performanceMode = true) :
    rankChromaticIntervals D p c = (staticConsonanceRanking, c) := by
  unfold rankChromaticIntervals
  rw [hperf]
  rfl

theorem rank_of_cacheGet_some (D : DissonanceFn) (p : IntervalRankingParams)
    (c : RankingCache) (v : List ℕ)
    (hperf : p.performanceMode = false)
    (hc : cacheGet c (rankingKey p) = some v) :
    rankChromaticIntervals D p c = (v, c) := by
  unfold rankChromaticIntervals
  rw [hperf]
  simp only [Bool.false_eq_true, if_false]
  rw [hc]

theorem rank_of_cacheGet_none (D : DissonanceFn) (p : IntervalRankingParams)
    (c : RankingCache)
    (hperf : p.performanceMode = false)
    (hc : cacheGet c (rankingKey p) = none) :
    rankChromaticIntervals D p c =
      (computedRanking D p,
       setRankingCache c (rankingKey p) (computedRanking D p)) := by
  unfold rankChromaticIntervals computedRanking
  rw [hperf]
  simp only [Bool.false_eq_true, if_false]
  rw [hc]

theorem rank_fst_perm (D : DissonanceFn) (p : IntervalRankingParams)
    (c : RankingCache) (h : WFRankingCache c) :
    ((rankChromaticIntervals D p c).1).Perm (List.range 12) := by
  by_cases hperf : p.performanceMode = true
  · rw [rank_of_performanceMode D p c hperf]
    show staticConsonanceRanking.Perm (List.range 12)
    decide
  · rw [Bool.not_eq_true] at hperf
    cases hc : cacheGet c (rankingKey p) with
    | some v =>
      rw [rank_of_cacheGet_some D p c v hperf hc]
      exact h (rankingKey p, v) (cacheGet_mem hc)
    | none =>
      rw [rank_of_cacheGet_none D p c hperf hc]
      exact computedRanking_perm D p

theorem clamp01_one : clamp01 1 = 1 := by norm_num [clamp01]

theorem clamp01_zero : clamp01 0 = 0 := by norm_num [clamp01]

theorem clamp01_of_bounds (q : ℚ) (h0 : 0 ≤ q) (h1 : q ≤ 1) :
    clamp01 q = q := by
  rw [clamp01, if_neg (by linarith), if_neg (by linarith)]

theorem mapP_fst (D : DissonanceFn) (params : PleasantnessParams)
    (cache : RankingCache) :
    (mapPleasantnessToInterval D params cache).1 =
      selectRanking
        (rankChromaticIntervals D params.toIntervalRankingParams cache).1
        (clamp01 params.pleasantness) := rfl

theorem mapCont_fst (D : DissonanceFn) (params : PleasantnessParams)
    (cache : RankingCache) :
    (mapPleasantnessToIntervalContinuous D params cache).1 =
      interpolateRanking
        (rankChromaticIntervals D params.toIntervalRankingParams cache).1
        (clamp01 params.pleasantness) := rfl

theorem jsRound_zero : jsRound 0 = 0 := by norm_num [jsRound]

theorem jsRound_eleven : jsRound 11 = 11 := by norm_num [jsRound]

theorem selectRanking_one (r : List ℕ) : selectRanking r 1 = r.get? 0 := by
  unfold selectRanking
  have h1 : ((1 : ℚ) - 1) * ((r.length : ℚ) - 1) = 0 := by ring
  rw [h1, jsRound_zero]
  rfl

theorem selectRanking_zero (r : List ℕ) (hlen : r.length = 12) :
    selectRanking r 0 = r.get? 11 := by
  unfold selectRanking
  rw [hlen]
  have h1 : ((1 : ℚ) - 0) * (((12 : ℕ) : ℚ) - 1) = 11 := by norm_num
  rw [h1, jsRound_eleven]
  rfl

theorem selectRanking_formula (r : List ℕ) (hlen : r.length = 12) (pl : ℚ) :
    selectRanking r pl = r.get? (jsRound ((1 - pl) * 11)).toNat := by
  unfold selectRanking
  rw [hlen]
  have h1 : ((1 : ℚ) - pl) * (((12 : ℕ) : ℚ) - 1) = (1 - pl) * 11 := by
    push_cast
    ring
  rw [h1]

theorem interpolateRanking_one (r : List ℕ) (hlen : r.length = 12) :
    interpolateRanking r 1 = (r.get? 0).map fun a => (a : ℚ) := by
  unfold interpolateRanking
  rw [hlen]
  have hpos : ((1 : ℚ) - 1) * (((12 : ℕ) : ℚ) - 1) = 0 := by ring
  rw [hpos]
  simp only [Int.floor_zero, Int.toNat_zero, Nat.zero_add]
  rw [if_neg (by push_cast; norm_num)]
  obtain ⟨a, ha⟩ : ∃ a, r.get? 0 = some a :=
    ⟨r.get ⟨0, by omega⟩, List.get?_eq_get (by omega)⟩
  obtain ⟨b, hb⟩ : ∃ b, r.get? 1 = some b :=
    ⟨r.get ⟨1, by omega⟩, List.get?_eq_get (by omega)⟩
  rw [ha, hb]
  norm_num

theorem interpolateRanking_zero (r : List ℕ) (hlen : r.length = 12) :
    interpolateRanking r 0 = (r.get? 11).map fun a => (a : ℚ) := by
  unfold interpolateRanking
  rw [hlen]
  have hpos : ((1 : ℚ) - 0) * (((12 : ℕ) : ℚ) - 1) = 11 := by norm_num
  rw [hpos]
  have hidx : (⌊(11 : ℚ)⌋ : ℤ) = 11 := by norm_num
  rw [hidx]
  rw [if_pos (by push_cast; norm_num)]

theorem interpolateRanking_bracket (r : List ℕ) (pl : ℚ) (a b : ℕ)
    (hlen : r.length = 12) (_h0 : 0 ≤ pl) (h1 : pl ≤ 1)
    (hlt : (⌊(1 - pl) * 11⌋).toNat < 11)
    (ha : r.get? (⌊(1 - pl) * 11⌋).toNat = some a)
    (hb : r.get? ((⌊(1 - pl) * 11⌋).toNat + 1) = some b) :
    interpolateRanking r pl =
      some ((a : ℚ) + ((b : ℚ) - a) *
        ((1 - pl) * 11 - (⌊(1 - pl) * 11⌋ : ℚ))) := by
  unfold interpolateRanking
  rw [hlen]
  have hpos : ((1 : ℚ) - pl) * (((12 : ℕ) : ℚ) - 1) = (1 - pl) * 11 := by
    push_cast
    ring
  rw [hpos]
  have hnonneg : (0 : ℚ) ≤ (1 - pl) * 11 := by nlinarith
  have hidx0 : 0 ≤ ⌊(1 - pl) * 11⌋ := Int.floor_nonneg.mpr hnonneg
  have hidxlt : ⌊(1 - pl) * 11⌋ < 11 := by omega
  have hcond : ¬(((12 : ℕ) : ℚ) - 1 ≤ ((⌊(1 - pl) * 11⌋ : ℤ) : ℚ)) := by
    push_cast
    rw [not_le]
    have hq : ((⌊(1 - pl) * 11⌋ : ℤ) : ℚ) < 11 := by exact_mod_cast hidxlt
    linarith
  rw [if_neg hcond, ha, hb]

/-- C4. For every ranking request from a well-formed cache, the ranking
has 12 entries; `pleasantness = 1` selects its first (most consonant)
entry and `pleasantness = 0` its last (most dissonant), in both the
discrete and the continuous variant; the discrete variant reads the index
nearest to `(1 - pleasantness) * 11`; the continuous variant returns the
linear interpolation between the two bracketing ranked values; and a
concrete intermediate pleasantness yields a non-integer offset. -/
theorem c4_pleasantness_selects_ranked_intervals
    (D : DissonanceFn) (p : IntervalRankingParams) (cache : RankingCache)
    (hWF : WFRankingCache cache) :
    (rankChromaticIntervals D p cache).1.length = 12 ∧
    (mapPleasantnessToInterval D ⟨p, 1⟩ cache).1 =
      (rankChromaticIntervals D p cache).1.get? 0 ∧
    (mapPleasantnessToInterval D ⟨p, 0⟩ cache).1 =
      (rankChromaticIntervals D p cache).1.get? 11 ∧
    (mapPleasantnessToIntervalContinuous D ⟨p, 1⟩ cache).1 =
      ((rankChromaticIntervals D p cache).1.get? 0).map (fun a => (a : ℚ)) ∧
    (mapPleasantnessToIntervalContinuous D ⟨p, 0⟩ cache).1 =
      ((rankChromaticIntervals D p cache).1.get? 11).map (fun a => (a : ℚ)) ∧
    (∀ pl : ℚ, (mapPleasantnessToInterval D ⟨p, pl⟩ cache).1 =
      (rankChromaticIntervals D p cache).1.get?
        (jsRound ((1 - clamp01 pl) * 11)).toNat) ∧
    (∀ (pl : ℚ) (a b : ℕ), 0 ≤ pl → pl ≤ 1 →
      (⌊(1 - pl) * 11⌋).toNat < 11 →
      (rankChromaticIntervals D p cache).1.get?
        (⌊(1 - pl) * 11⌋).toNat = some a →
      (rankChromaticIntervals D p cache).1.get?
        ((⌊(1 - pl) * 11⌋).toNat + 1) = some b →
      (mapPleasantnessToIntervalContinuous D ⟨p, pl⟩ cache).1 =
        some ((a : ℚ) + ((b : ℚ) - a) *
          ((1 - pl) * 11 - (⌊(1 - pl) * 11⌋ : ℚ)))) ∧
    ((mapPleasantnessToIntervalContinuous zeroDissonance
      ⟨perfParams, 95/100⟩ []).1 = some (77/20) ∧
      ∀ z : ℤ, (77/20 : ℚ) ≠ (z : ℚ)) := by
  have hlen : (rankChromaticIntervals D p cache).1.length = 12 := by
    rw [(rank_fst_perm D p cache hWF).length_eq, List.length_range]
  refine ⟨hlen, ?_, ?_, ?_, ?_, ?_, ?_, ?_, ?_⟩
  · rw [mapP_fst, clamp01_one, selectRanking_one]
  · rw [mapP_fst, clamp01_zero, selectRanking_zero _ hlen]
  · rw [mapCont_fst, clamp01_one, interpolateRanking_one _ hlen]
  · rw [mapCont_fst, clamp01_zero, interpolateRanking_zero _ hlen]
  · intro pl
    rw [mapP_fst, selectRanking_formula _ hlen]
  · intro pl a b h0 h1 hlt ha hb
    rw [mapCont_fst, clamp01_of_bounds pl h0 h1,
      interpolateRanking_bracket _ pl a b hlen h0 h1 hlt ha hb]
  · rw [mapCont_fst]
    show interpolateRanking
      (rankChromaticIntervals zeroDissonance perfParams []).1
      (clamp01 (95/100)) = some (77/20)
    rw [rank_of_performanceMode zeroDissonance perfParams [] rfl]
    show interpolateRanking staticConsonanceRanking (clamp01 (95/100)) =
      some (77/20)
    rw [clamp01_of_bounds _ (by norm_num) (by norm_num)]
    have hfl : ⌊((1 : ℚ) - 95/100) * 11⌋ = 0 := by norm_num
    rw [interpolateRanking_bracket staticConsonanceRanking (95/100) 0 7 rfl
      (by norm_num) (by norm_num) (by rw [hfl]; norm_num)
      (by rw [hfl]; rfl) (by rw [hfl]; rfl)]
    rw [hfl]
    norm_num
  · intro z hz
    have hd : ((77 : ℚ)/20).den = ((z : ℚ)).den := congrArg Rat.den hz
    rw [Rat.den_intCast] at hd
    have h20 : ((77 : ℚ)/20).den = 20 := by norm_num [Rat.den_div_eq_of_coprime]
    omega

/-- Witness for C4 at a concrete scorer (all scores tie, so the ranking is
`[0..11]`): full pleasantness selects offset 0, zero pleasantness offset
11, and pleasantness 0.95 on the static ranking yields 3.85 semitones. -/
theorem c4_witness :
    WFRankingCache ([] : RankingCache) ∧
    (mapPleasantnessToInterval zeroDissonance
      ⟨sampleParams, 1⟩ []).1 = some 0 ∧
    (mapPleasantnessToInterval zeroDissonance
      ⟨sampleParams, 0⟩ []).1 = some 11 ∧
    (mapPleasantnessToIntervalContinuous zeroDissonance
      ⟨perfParams, 95/100⟩ []).1 = some (77/20) := by
  have hWF : WFRankingCache ([] : RankingCache) := by
    intro kv hkv
    exact absurd hkv (List.not_mem_nil kv)
  obtain ⟨hlen, h1, h0, hc1, hc0, hf, hbr, hni⟩ :=
    c4_pleasantness_selects_ranked_intervals zeroDissonance sampleParams []
      hWF
  refine ⟨hWF, ?_, ?_, hni.1⟩
  · rw [h1]
    decide
  · rw [h0]
    decide

/-! ## Harmonic-count cap (claim C6) -/

theorem cappedHarmonics_of_ge (h : ℚ) (hge : (32 : ℚ) ≤ h) :
    cappedHarmonics h = 32 := by
  unfold cappedHarmonics MAX_HARMONICS
  have hfl : (32 : ℤ) ≤ ⌊h⌋ := Int.le_floor.mpr (by exact_mod_cast hge)
  omega

theorem cappedHarmonics_32 : cappedHarmonics 32 = 32 := by
  have hfl : ⌊(32 : ℚ)⌋ = 32 := by norm_num
  unfold cappedHarmonics MAX_HARMONICS
  omega

/-- C6. A harmonic count at or above the cap of 32 behaves exactly like
32: `buildPartials`, `intervalDissonance`, `rankChromaticIntervals` (for
any scorer) and `createTimbreWave` all produce identical output. -/
theorem c6_harmonic_cap_saturates
    (att : ℚ → ℕ → ℚ) (ex pow2 : ℚ → ℚ) (f b h : ℚ)
    (hge : (32 : ℚ) ≤ h) :
    cappedHarmonics h = cappedHarmonics 32 ∧
    buildPartials att f b h = buildPartials att f b 32 ∧
    (∀ s : ℕ, intervalDissonance ex pow2 att f s b h =
      intervalDissonance ex pow2 att f s b 32) ∧
    (∀ (D : DissonanceFn) (p : IntervalRankingParams) (c : RankingCache),
      rankChromaticIntervals D { p with numHarmonics := h } c =
        rankChromaticIntervals D { p with numHarmonics := 32 } c) ∧
    (∀ wc : WaveCache,
      createTimbreWave att wc b h = createTimbreWave att wc b 32) := by
  have hcap : cappedHarmonics h = cappedHarmonics 32 := by
    rw [cappedHarmonics_of_ge h hge, cappedHarmonics_32]
  have hbp : buildPartials att f b h = buildPartials att f b 32 := by
    unfold buildPartials
    rw [hcap]
  refine ⟨hcap, hbp, ?_, ?_, ?_⟩
  · intro s
    simp only [intervalDissonance]
    rw [hbp, show buildPartials att (f * pow2 ((s : ℚ) / 12)) b h =
        buildPartials att (f * pow2 ((s : ℚ) / 12)) b 32 by
          unfold buildPartials; rw [hcap]]
  · intro D p c
    simp only [rankChromaticIntervals, rankingKey]
    rw [hcap]
  · intro wc
    simp only [createTimbreWave]
    rw [hcap]

/-- Witness for C6: harmonic count 1000 behaves exactly like 32. -/
theorem c6_witness :
    (32 : ℚ) ≤ 1000 ∧
    buildPartials oneAtt 220 (1/2) 1000 = buildPartials oneAtt 220 (1/2) 32 ∧
    (∀ wc : WaveCache,
      createTimbreWave oneAtt wc (1/2) 1000 =
        createTimbreWave oneAtt wc (1/2) 32) := by
  have hge : (32 : ℚ) ≤ 1000 := by norm_num
  obtain ⟨h1, h2, h3, h4, h5⟩ :=
    c6_harmonic_cap_saturates oneAtt id id 220 (1/2) 1000 hge
  exact ⟨hge, h2, h5⟩

/-! ## Lookahead scheduler input validation (claim C7) -/

theorem insertByTime_mem {τ : Type} (item : ScheduledItem τ) :
    ∀ items : List (ScheduledItem τ), item ∈ insertByTime item items := by
  intro items
  induction items with
  | nil => exact List.mem_singleton.mpr rfl
  | cons x xs ih =>
    unfold insertByTime
    split_ifs
    · exact List.mem_cons_self _ _
    · exact List.mem_cons_of_mem x ih

/-- C7. A schedule request with a non-finite or negative time returns the
sentinel `-1` and leaves the scheduler state (in particular the pending
queue) unchanged, so the rejected callback is never enqueued and hence
never invoked; the rejection is a total return, not an exception.  A
request at time exactly 0 is accepted: it returns the allocated id (which
is never `-1`) and enqueues the callback at time 0. -/
theorem c7_scheduler_rejects_invalid_times
    {τ : Type} (state : SchedulerState τ) (time : JSNum) (run : τ)
    (hbad : time.isFinite = false ∨ time.isNegative = true) :
    scheduleAudioTask state time run = (-1, state) ∧
    (scheduleAudioTask state (.fin 0) run).1 = (state.nextId : ℤ) ∧
    (scheduleAudioTask state (.fin 0) run).1 ≠ -1 ∧
    (∃ item ∈ (scheduleAudioTask state (.fin 0) run).2.items,
      item.time = 0 ∧ item.run = run) := by
  have hcond : (!time.isFinite || time.isNegative) = true := by
    rcases hbad with h | h
    · rw [h]
      rfl
    · rw [h]
      simp
  have hzero : (!(JSNum.fin 0).isFinite || (JSNum.fin 0).isNegative) = false := by
    decide
  refine ⟨?_, ?_, ?_, ?_⟩
  · unfold scheduleAudioTask
    rw [hcond]
    rfl
  · unfold scheduleAudioTask
    rw [hzero]
    rfl
  · unfold scheduleAudioTask
    rw [hzero]
    show (state.nextId : ℤ) ≠ -1
    omega
  · unfold scheduleAudioTask
    rw [hzero]
    refine ⟨{ time := (JSNum.fin 0).toQ, id := state.nextId, run := run },
      ?_, rfl, rfl⟩
    show _ ∈ insertByTime _ state.items
    exact insertByTime_mem _ state.items

/-- Witness for C7: scheduling at `NaN` from an idle scheduler returns
`-1` and leaves the queue empty; scheduling at time 0 is accepted with
id 1. -/
theorem c7_witness :
    ((JSNum.nan.isFinite = false ∨ JSNum.nan.isNegative = true) ∧
      scheduleAudioTask idleScheduler JSNum.nan 7 = (-1, idleScheduler)) ∧
    (scheduleAudioTask idleScheduler (.fin 0) 7).1 = 1 ∧
    ((JSNum.fin (-1)).isFinite = false ∨ (JSNum.fin (-1)).isNegative = true) ∧
    scheduleAudioTask idleScheduler (JSNum.fin (-1)) 7 = (-1, idleScheduler) := by
  have hnan : JSNum.nan.isFinite = false ∨ JSNum.nan.isNegative = true :=
    Or.inl rfl
  have hneg : (JSNum.fin (-1)).isFinite = false ∨
      (JSNum.fin (-1)).isNegative = true := by
    right
    decide
  refine ⟨⟨hnan, ?_⟩, ?_, hneg, ?_⟩
  · exact (c7_scheduler_rejects_invalid_times idleScheduler .nan 7 hnan).1
  · exact (c7_scheduler_rejects_invalid_times idleScheduler .nan 7 hnan).2.1
  · exact (c7_scheduler_rejects_invalid_times idleScheduler
      (JSNum.fin (-1)) 7 hneg).1

/-! ## Aesthetic merge clamping (claims C8) -/

theorem clamp01Js_inUnit (v : JSNum) (h : v ≠ .nan) :
    inUnitInterval (clamp01Js v) = true := by
  cases v with
  | nan => exact absurd rfl h
  | inf => decide
  | negInf => decide
  | fin q =>
    unfold clamp01Js JSNum.isNegative JSNum.gtOne
    split_ifs with h1 h2
    · decide
    · decide
    · simp only [decide_eq_true_eq] at h1 h2
      unfold inUnitInterval
      simp only [decide_eq_true_eq]
      constructor
      · linarith
      · linarith

theorem applyOverride_noNan (m : AestheticParams)
    (o : Option PartialAesthetics)
    (hm : noNanBounded m = true) (ho : noNanOverride o = true) :
    noNanBounded (applyOverride m o) = true := by
  cases o with
  | none => exact hm
  | some po =>
    unfold noNanBounded at hm ⊢
    unfold noNanOverride at ho
    simp only [Bool.and_eq_true, Bool.not_eq_true', beq_eq_false_iff_ne,
      ne_eq] at hm ho ⊢
    obtain ⟨⟨⟨⟨hm1, hm2⟩, hm3⟩, hm4⟩, hm5⟩ := hm
    obtain ⟨⟨⟨⟨ho1, ho2⟩, ho3⟩, ho4⟩, ho5⟩ := ho
    unfold applyOverride
    refine ⟨⟨⟨⟨?_, ?_⟩, ?_⟩, ?_⟩, ?_⟩ <;>
      simp only
    · cases hpo : po.pleasantness with
      | none => simpa [hpo] using hm1
      | some v =>
        simp only [Option.getD_some]
        intro hv
        exact ho1 (by rw [hpo, hv])
    · cases hpo : po.brightness with
      | none => simpa [hpo] using hm2
      | some v =>
        simp only [Option.getD_some]
        intro hv
        exact ho2 (by rw [hpo, hv])
    · cases hpo : po.arousal with
      | none => simpa [hpo] using hm3
      | some v =>
        simp only [Option.getD_some]
        intro hv
        exact ho3 (by rw [hpo, hv])
    · cases hpo : po.valence with
      | none => simpa [hpo] using hm4
      | some v =>
        simp only [Option.getD_some]
        intro hv
        exact ho4 (by rw [hpo, hv])
    · cases hpo : po.simultaneity with
      | none => simpa [hpo] using hm5
      | some v =>
        simp only [Option.getD_some]
        intro hv
        exact ho5 (by rw [hpo, hv])

theorem foldl_applyOverride_noNan (overrides : List (Option PartialAesthetics)) :
    ∀ base : AestheticParams, noNanBounded base = true →
      (∀ o ∈ overrides, noNanOverride o = true) →
      noNanBounded (overrides.foldl applyOverride base) = true := by
  induction overrides with
  | nil => intro base hb _; exact hb
  | cons o rest ih =>
    intro base hb ho
    exact ih (applyOverride base o)
      (applyOverride_noNan base o hb (ho o (List.mem_cons_self o rest)))
      fun o2 h2 => ho o2 (List.mem_cons_of_mem o h2)

/-- Counterexample to C8 as stated: an override layer that defines
`pleasantness` as the number `NaN` passes the `typeof === "number"` check,
and `clamp01` maps `NaN` to `NaN` (both comparisons are false), so the
merged result has a bounded field outside `[0, 1]`. -/
theorem c8_counterexample :
    (mergeAesthetics baseAesthetics [some nanOverride]).pleasantness =
      JSNum.nan ∧
    inUnitInterval
      (mergeAesthetics baseAesthetics [some nanOverride]).pleasantness =
      false := by
  exact ⟨rfl, rfl⟩

/-- C8 amended: whenever neither the base nor any override layer supplies
`NaN` for a bounded field, the final merge leaves all five bounded fields
within `[0, 1]`; and each layer overwrites exactly the fields it defines
as numbers, leaving the others untouched. -/
theorem c8_merge_clamps_bounded_fields
    (base : AestheticParams) (overrides : List (Option PartialAesthetics))
    (hb : noNanBounded base = true)
    (ho : ∀ o ∈ overrides, noNanOverride o = true) :
    inUnitInterval (mergeAesthetics base overrides).pleasantness = true ∧
    inUnitInterval (mergeAesthetics base overrides).brightness = true ∧
    inUnitInterval (mergeAesthetics base overrides).arousal = true ∧
    inUnitInterval (mergeAesthetics base overrides).valence = true ∧
    inUnitInterval (mergeAesthetics base overrides).simultaneity = true ∧
    (∀ (m : AestheticParams) (o : PartialAesthetics),
      (o.pleasantness = none →
        (applyOverride m (some o)).pleasantness = m.pleasantness) ∧
      (∀ v, o.pleasantness = some v →
        (applyOverride m (some o)).pleasantness = v) ∧
      (o.brightness = none →
        (applyOverride m (some o)).brightness = m.brightness) ∧
      (∀ v, o.brightness = some v →
        (applyOverride m (some o)).brightness = v) ∧
      (o.arousal = none →
        (applyOverride m (some o)).arousal = m.arousal) ∧
      (∀ v, o.arousal = some v →
        (applyOverride m (some o)).arousal = v) ∧
      (o.valence = none →
        (applyOverride m (some o)).valence = m.valence) ∧
      (∀ v, o.valence = some v →
        (applyOverride m (some o)).valence = v) ∧
      (o.simultaneity = none →
        (applyOverride m (some o)).simultaneity = m.simultaneity) ∧
      (∀ v, o.simultaneity = some v →
        (applyOverride m (some o)).simultaneity = v) ∧
      (o.baseMidi = none →
        (applyOverride m (some o)).baseMidi = m.baseMidi) ∧
      (∀ v, o.baseMidi = some v →
        (applyOverride m (some o)).baseMidi = some v) ∧
      (o.duration = none →
        (applyOverride m (some o)).duration = m.duration) ∧
      (∀ v, o.duration = some v →
        (applyOverride m (some o)).duration = some v)) := by
  have hmerged := foldl_applyOverride_noNan overrides base hb ho
  simp only [noNanBounded, Bool.and_eq_true, Bool.not_eq_true',
    beq_eq_false_iff_ne, ne_eq] at hmerged
  obtain ⟨⟨⟨⟨h1, h2⟩, h3⟩, h4⟩, h5⟩ := hmerged
  refine ⟨?_, ?_, ?_, ?_, ?_, ?_⟩
  · exact clamp01Js_inUnit _ h1
  · exact clamp01Js_inUnit _ h2
  · exact clamp01Js_inUnit _ h3
  · exact clamp01Js_inUnit _ h4
  · exact clamp01Js_inUnit _ h5
  · intro m o
    refine ⟨?_, ?_, ?_, ?_, ?_, ?_, ?_, ?_, ?_, ?_, ?_, ?_, ?_, ?_⟩ <;>
      (intros
       rename_i hf
       simp only [applyOverride, hf, Option.getD_none, Option.getD_some])

/-- Witness for C8 amended: a NaN-free base with an out-of-range override
value 2 clamps that field to 1. -/
theorem c8_witness :
    noNanBounded baseAesthetics = true ∧
    (∀ o ∈ [some bigOverride], noNanOverride o = true) ∧
    inUnitInterval
      (mergeAesthetics baseAesthetics [some bigOverride]).pleasantness =
      true ∧
    (mergeAesthetics baseAesthetics [some bigOverride]).pleasantness =
      JSNum.fin 1 := by
  have hb : noNanBounded baseAesthetics = true := by decide
  have ho : ∀ o ∈ [some bigOverride], noNanOverride o = true := by
    intro o hm
    rcases List.mem_singleton.mp hm with rfl
    decide
  obtain ⟨hp, _⟩ := c8_merge_clamps_bounded_fields baseAesthetics
    [some bigOverride] hb ho
  exact ⟨hb, ho, hp, by decide⟩

/-! ## Differ primitive branch (claim C9) -/

/-- C9. When at least one snapshot fails the composite (object-like)
check, `detectChanges` returns exactly the single change
`{path := root, operation := update}` carrying the two snapshots if and
only if they are not identical by value (JS strict equality), and returns
the empty list when they are identical — for any instantiation of the
composite branch. -/
theorem c9_differ_primitive_root_change
    (compositeDiff : JSVal → JSVal → List Change) (cur prev : JSVal)
    (h : typeofIsObject cur = false ∨ cur = .vnull ∨
      typeofIsObject prev = false ∨ prev = .vnull) :
    (detectChanges compositeDiff cur prev =
      [{ path := "root", operation := .update,
         valueType := getValueType cur,
         newValue := cur, oldValue := prev }] ↔
      identicalByValue cur prev = false) ∧
    (identicalByValue cur prev = true →
      detectChanges compositeDiff cur prev = []) := by
  have hguard : (!typeofIsObject cur || decide (cur = JSVal.vnull)
      || !typeofIsObject prev || decide (prev = JSVal.vnull)) = true := by
    rcases h with h | h | h | h <;> simp [h]
  have hid : identicalByValue cur prev = strictEq cur prev := rfl
  cases hst : strictEq cur prev with
  | true =>
    have hdet : detectChanges compositeDiff cur prev = [] := by
      simp [detectChanges, hguard, hst]
    rw [hdet, hid, hst]
    refine ⟨⟨fun hfalse => ?_, fun htf => ?_⟩, fun _ => rfl⟩
    · simp at hfalse
    · simp at htf
  | false =>
    have hdet : detectChanges compositeDiff cur prev =
        [{ path := "root", operation := .update,
           valueType := getValueType cur,
           newValue := cur, oldValue := prev }] := by
      simp [detectChanges, hguard, hst]
    rw [hdet, hid, hst]
    refine ⟨⟨fun _ => rfl, fun _ => rfl⟩, fun hft => ?_⟩
    simp at hft

/-- Witness for C9: two distinct numbers produce one root update change;
equal numbers produce none. -/
theorem c9_witness :
    (typeofIsObject (JSVal.vnum (.fin 1)) = false ∨
      JSVal.vnum (.fin 1) = .vnull ∨
      typeofIsObject (JSVal.vnum (.fin 2)) = false ∨
      JSVal.vnum (.fin 2) = .vnull) ∧
    detectChanges (fun _ _ => []) (.vnum (.fin 1)) (.vnum (.fin 2)) =
      [{ path := "root", operation := .update, valueType := .number,
         newValue := .vnum (.fin 1), oldValue := .vnum (.fin 2) }] ∧
    identicalByValue (.vnum (.fin 1)) (.vnum (.fin 2)) = false ∧
    detectChanges (fun _ _ => []) (.vnum (.fin 1)) (.vnum (.fin 1)) = [] := by
  have h1 : typeofIsObject (JSVal.vnum (.fin 1)) = false ∨
      JSVal.vnum (.fin 1) = .vnull ∨
      typeofIsObject (JSVal.vnum (.fin 2)) = false ∨
      JSVal.vnum (.fin 2) = .vnull := Or.inl rfl
  have h2 : typeofIsObject (JSVal.vnum (.fin 1)) = false ∨
      JSVal.vnum (.fin 1) = .vnull ∨
      typeofIsObject (JSVal.vnum (.fin 1)) = false ∨
      JSVal.vnum (.fin 1) = .vnull := Or.inl rfl
  refine ⟨h1, ?_, by decide, ?_⟩
  · exact (c9_differ_primitive_root_change (fun _ _ => [])
      (.vnum (.fin 1)) (.vnum (.fin 2)) h1).1.mpr (by decide)
  · exact (c9_differ_primitive_root_change (fun _ _ => [])
      (.vnum (.fin 1)) (.vnum (.fin 1)) h2).2 (by decide)

end Zusound
